import Mathlib

/-!
Shallow embedding of the core logic of the batch image renaming app:
the CSV mapping parser (`parseCSV`), the name resolver and batch
processor (`processImages`), and the bulk download routine
(`downloadAll`).  Strings are modelled as lists of characters; the
JavaScript string operations used by the source (`split`, `trim`,
`toLowerCase`, `includes`, `replace` of quote characters, and the
extension-stripping regular expression) are modelled explicitly below.
The image decode/encode collaborators (canvas image loading and
`canvas.toBlob`) are modelled by an explicit environment `Env`.
-/

namespace ImageFlair

/-- Decidable equality of `Except` values, used to evaluate parser
results on concrete inputs. -/
instance {ε α : Type} [DecidableEq ε] [DecidableEq α] : DecidableEq (Except ε α)
  | .ok a, .ok b =>
    if h : a = b then .isTrue (by rw [h]) else .isFalse (fun hh => by cases hh; exact h rfl)
  | .ok _, .error _ => .isFalse (fun hh => by cases hh)
  | .error _, .ok _ => .isFalse (fun hh => by cases hh)
  | .error e, .error e' =>
    if h : e = e' then .isTrue (by rw [h]) else .isFalse (fun hh => by cases hh; exact h rfl)

/-- Strings are modelled as lists of characters. -/
abbrev Str := List Char

/-- Shorthand turning a Lean string literal into its character list. -/
def str (s : String) : Str := s.data

/-- The characters removed by JavaScript `String.prototype.trim`
(ECMAScript WhiteSpace and LineTerminator code points). -/
def isJsWhitespace (c : Char) : Bool :=
  let n := c.toNat
  n = 0x20 || n = 0x09 || n = 0x0A || n = 0x0D || n = 0x0B || n = 0x0C ||
  n = 0xA0 || n = 0xFEFF || n = 0x1680 || (0x2000 ≤ n && n ≤ 0x200A) ||
  n = 0x2028 || n = 0x2029 || n = 0x202F || n = 0x205F || n = 0x3000

/-- JavaScript `s.trim()`: drop leading and trailing whitespace. -/
def trim (s : Str) : Str :=
  (((s.dropWhile isJsWhitespace).reverse.dropWhile isJsWhitespace)).reverse

/-- Character-wise lower casing, JavaScript `s.toLowerCase()`
(the source only relies on ASCII case mapping). -/
def toLowerStr (s : Str) : Str := s.map Char.toLower

/-- Does `hay` start with `needle`?  (JavaScript `hay.startsWith(needle)`.) -/
def startsWithStr : Str → Str → Bool
  | _, [] => true
  | [], _ :: _ => false
  | a :: as, b :: bs => a == b && startsWithStr as bs

/-- JavaScript `hay.includes(needle)`: substring containment test. -/
def strIncludes : Str → Str → Bool
  | [], needle => startsWithStr [] needle
  | c :: t, needle => startsWithStr (c :: t) needle || strIncludes t needle

/-- JavaScript `s.replace(/['"]g, '')`: delete quote characters. -/
def stripQuotes (s : Str) : Str :=
  s.filter (fun c => !(c.toNat = 39 || c.toNat = 34))

/-- One (current name, new name) pair parsed from the CSV. -/
structure CSVMapping where
  currentName : Str
  newName : Str
deriving Repr, DecidableEq

/-- Header-field test for the "current name" column
(`h.includes('current') || h.includes('old') || h.includes('original') || h === 'from'`). -/
def isCurrentHeader (h : Str) : Bool :=
  strIncludes h (str "current") || strIncludes h (str "old") ||
  strIncludes h (str "original") || h == str "from"

/-- Header-field test for the "new name" column
(`h.includes('new') || h.includes('rename') || h.includes('target') || h === 'to'`). -/
def isNewHeader (h : Str) : Bool :=
  strIncludes h (str "new") || strIncludes h (str "rename") ||
  strIncludes h (str "target") || h == str "to"

/-- Processing of one data row of the CSV: split on commas, trim each
column, and keep the row only when it has at least two columns and both
extracted values are non-empty after quote stripping. -/
def parseRow (useCurrentIndex useNewIndex : Nat) (line : Str) : Option CSVMapping :=
  let columns := (List.splitOn ',' line).map trim
  if 2 ≤ columns.length then
    let currentName := stripQuotes (columns.getD useCurrentIndex [])
    let newName := stripQuotes (columns.getD useNewIndex [])
    if !currentName.isEmpty && !newName.isEmpty then
      some ⟨currentName, newName⟩
    else none
  else none

/-- The body of `parseCSV` on the kept (non-blank) lines: header column
detection and row collection. -/
def parseKept (lines : List Str) : Except Str (List CSVMapping) :=
  if lines.length < 2 then
    .error (str "CSV must have at least a header row and one data row")
  else
    let headers := (List.splitOn ',' (lines.headD [])).map (fun h => toLowerStr (trim h))
    let currentNameIndex := headers.findIdx? isCurrentHeader
    let newNameIndex := headers.findIdx? isNewHeader
    if (currentNameIndex.isNone || newNameIndex.isNone) && headers.length < 2 then
      .error (str "CSV must have at least 2 columns")
    else
      let useCurrentIndex := currentNameIndex.getD 0
      let useNewIndex := newNameIndex.getD 1
      .ok ((lines.drop 1).filterMap (parseRow useCurrentIndex useNewIndex))

/-- The body of `parseCSV` after the text has been split into raw lines:
discard blank lines, then parse the kept lines. -/
def parseLines (rawLines : List Str) : Except Str (List CSVMapping) :=
  parseKept (rawLines.filter (fun line => !(trim line).isEmpty))

/-- `parseCSV` from `CSVUpload.tsx`: split the text on `'\n'`, drop
blank lines, detect the two relevant columns in the (comma-split)
header, and collect the mapping rows. -/
def parseCSV (text : Str) : Except Str (List CSVMapping) :=
  parseLines (List.splitOn '\n' text)

/-- An uploaded image: the original file name and the preview handle
whose bytes the processor re-encodes. -/
structure ImageFile where
  name : Str
  preview : Str
deriving Repr, DecidableEq

/-- `originalFileName.replace(/\.[^/.]+$/, "")`: remove a trailing
extension (a final dot followed by at least one character that is
neither a dot nor a slash). -/
def stripExt (f : Str) : Str :=
  let r := f.reverse
  let seg := r.takeWhile (fun c => !(c == '.'))
  if seg.length = r.length then f
  else if seg.isEmpty || seg.contains '/' then f
  else (r.drop (seg.length + 1)).reverse

/-- The four-way matching test of the resolver: exact file name, exact
stem, substring of the file name, or substring of the stem. -/
def entryMatches (originalFileName : Str) (m : CSVMapping) : Bool :=
  let fileNameWithoutExt := stripExt originalFileName
  m.currentName == originalFileName ||
  m.currentName == fileNameWithoutExt ||
  strIncludes originalFileName m.currentName ||
  strIncludes fileNameWithoutExt m.currentName

/-- `mapping.find(...)`: first entry matching the file name. -/
def findMapping (mapping : List CSVMapping) (originalFileName : Str) : Option CSVMapping :=
  mapping.find? (entryMatches originalFileName)

/-- The resolved base name: the matched entry's new name, or the
original file name when no entry matches. -/
def resolvedBase (mapping : List CSVMapping) (originalFileName : Str) : Str :=
  match findMapping mapping originalFileName with
  | some m => m.newName
  | none => originalFileName

/-- `originalFileName.split('.').pop()?.toLowerCase() || 'jpg'`:
the lower-cased final dot-separated segment, with `'jpg'` substituted
when that segment is empty. -/
def extOf (f : Str) : Str :=
  match (List.splitOn '.' f).getLast? with
  | none => str "jpg"
  | some s =>
    let l := s.map Char.toLower
    if l.isEmpty then str "jpg" else l

/-- Status of a processed image. -/
inductive PStatus where
  | pending
  | processed
  | failed
deriving Repr, DecidableEq

/-- An opaque re-encoded output blob handle. -/
structure Blob where
  data : Nat
deriving Repr, DecidableEq

/-- The browser collaborators used by the processing loop: loading an
image from its preview URL (which may fail) and `canvas.toBlob` with a
mime type and a quality parameter (which may fail). -/
structure Env where
  load : Str → Bool
  encode : Str → Str → Rat → Option Blob

/-- The result record for one image. -/
structure ProcessedImage where
  originalFile : ImageFile
  newName : Str
  status : PStatus
  blob : Option Blob
  error : Option Str
deriving Repr, DecidableEq

/-- `image/${originalExt === 'jpg' ? 'jpeg' : originalExt}`. -/
def mimeFor (ext : Str) : Str :=
  str "image/" ++ (if ext == str "jpg" then str "jpeg" else ext)

/-- The body of the per-image processing loop: resolve the new base
name, load the image (failure is caught with the generic message),
append the original extension when the resolved name has no dot, and
re-encode via `canvas.toBlob` (failure is caught with its message). -/
def processOne (env : Env) (mapping : List CSVMapping) (image : ImageFile) :
    ProcessedImage :=
  let originalFileName := image.name
  let base := resolvedBase mapping originalFileName
  if env.load image.preview then
    let originalExt := extOf originalFileName
    let newFileName := if base.contains '.' then base else base ++ '.' :: originalExt
    match env.encode image.preview (mimeFor originalExt) (9 / 10 : Rat) with
    | some b => ⟨image, newFileName, .processed, some b, none⟩
    | none => ⟨image, newFileName, .failed, none, some (str "Failed to create blob")⟩
  else
    ⟨image, base, .failed, none, some (str "Processing failed")⟩

/-- The processing loop: one result per image, and after each item the
published progress value `((i + 1) / images.length) * 100`. -/
def processGo (env : Env) (mapping : List CSVMapping) (total : Nat) :
    List ImageFile → Nat → List ProcessedImage × List Rat
  | [], _ => ([], [])
  | image :: rest, i =>
    let p := processOne env mapping image
    let out := processGo env mapping total rest (i + 1)
    (p :: out.1, ((((i : Rat) + 1) / (total : Rat)) * 100) :: out.2)

/-- `processImages`: returns `none` when the early guard
`images.length === 0 || mapping.length === 0` fires (no results and no
progress are produced), otherwise the full result and progress lists. -/
def processImages (env : Env) (images : List ImageFile) (mapping : List CSVMapping) :
    Option (List ProcessedImage × List Rat) :=
  if images.length = 0 || mapping.length = 0 then none
  else some (processGo env mapping images.length images 0)

/-- `zip.file(name, blob)` in the JSZip model: entries are keyed by
name; adding an existing name replaces its blob in place, a fresh name
is appended. -/
def zipFile (zip : List (Str × Blob)) (n : Str) (b : Blob) : List (Str × Blob) :=
  if zip.any (fun e => e.1 == n) then
    zip.map (fun e => if e.1 == n then (n, b) else e)
  else zip ++ [(n, b)]

/-- A performed save: the archive entries and the download file name. -/
structure SaveAction where
  entries : List (Str × Blob)
  downloadName : Str
deriving Repr, DecidableEq

/-- The body of the archive loop: `if (processedImage.blob) {
zip.file(processedImage.newName, processedImage.blob) }`. -/
def zipStep (z : List (Str × Blob)) (p : ProcessedImage) : List (Str × Blob) :=
  match p.blob with
  | some b => zipFile z p.newName b
  | none => z

/-- `downloadAll`: filter the processed results with a blob, add each to
the archive, and save it as `renamed-images.zip`.  The returned list
records the save actions performed (always exactly one). -/
def downloadAll (processedImages : List ProcessedImage) : List SaveAction :=
  let successfulImages := processedImages.filter
    (fun img => decide (img.status = PStatus.processed) && img.blob.isSome)
  let zip := successfulImages.foldl zipStep []
  [⟨zip, str "renamed-images.zip"⟩]

/-! ### Lemmas about `trim` -/

theorem trim_nil : trim [] = [] := rfl

theorem trim_cons_ws {c : Char} {l : Str} (h : isJsWhitespace c = true) :
    trim (c :: l) = trim l := by
  unfold trim
  rw [List.dropWhile_cons_of_pos h]

theorem trim_append_ws {c : Char} {l : Str} (h : isJsWhitespace c = true) :
    trim (l ++ [c]) = trim l := by
  unfold trim
  rw [List.dropWhile_append]
  by_cases hl : (l.dropWhile isJsWhitespace).isEmpty
  · rw [if_pos hl, List.dropWhile_cons_of_pos h, List.dropWhile_nil]
    rw [List.isEmpty_iff] at hl
    rw [hl]
  · rw [if_neg hl, List.reverse_append, List.reverse_singleton, List.singleton_append,
      List.dropWhile_cons_of_pos h]

theorem trim_eq_nil_of_all_ws {l : Str} (h : ∀ c ∈ l, isJsWhitespace c = true) :
    trim l = [] := by
  unfold trim
  rw [List.dropWhile_eq_nil_iff.mpr h, List.reverse_nil, List.dropWhile_nil, List.reverse_nil]

theorem dropWhile_eq_self_of_neg {p : Char → Bool} :
    ∀ {l : Str}, (∀ c ∈ l, p c = false) → l.dropWhile p = l
  | [], _ => rfl
  | c :: t, h => by
    have hc : ¬ p c := by simp [h c (List.mem_cons_self c t)]
    rw [List.dropWhile_cons_of_neg hc]

theorem trim_eq_self_of_no_ws {l : Str} (h : ∀ c ∈ l, isJsWhitespace c = false) :
    trim l = l := by
  unfold trim
  rw [dropWhile_eq_self_of_neg h, dropWhile_eq_self_of_neg, List.reverse_reverse]
  intro c hc
  exact h c (List.mem_reverse.mp hc)

/-! ### Lemmas about `List.splitOn` on characters -/

theorem splitOn_nil (c : Char) : List.splitOn c ([] : Str) = [[]] := rfl

theorem splitOn_ne_nil (c : Char) (l : Str) : List.splitOn c l ≠ [] :=
  List.splitOnP_ne_nil _ l

theorem splitOn_cons_sep (c : Char) (l : Str) :
    List.splitOn c (c :: l) = [] :: List.splitOn c l := by
  unfold List.splitOn
  rw [List.splitOnP_cons, if_pos (by simp)]

theorem splitOn_cons_ne {a c : Char} (l : Str) (h : a ≠ c) :
    List.splitOn c (a :: l) = (List.splitOn c l).modifyHead (List.cons a) := by
  unfold List.splitOn
  rw [List.splitOnP_cons, if_neg (by simp [h])]

theorem splitOn_sep_free {c : Char} {l : Str} (h : c ∉ l) :
    List.splitOn c l = [l] :=
  List.splitOnP_eq_single _ _ (fun x hx => by
    simp only [beq_iff_eq]
    intro hxc
    exact h (hxc ▸ hx))

theorem splitOn_append_sep (c : Char) :
    ∀ (a b : Str), List.splitOn c (a ++ c :: b) = List.splitOn c a ++ List.splitOn c b
  | [], b => by rw [List.nil_append, splitOn_cons_sep, splitOn_nil, List.singleton_append]
  | x :: xs, b => by
    by_cases hx : x = c
    · rw [List.cons_append, hx, splitOn_cons_sep, splitOn_append_sep c xs b, splitOn_cons_sep,
        List.cons_append]
    · rw [List.cons_append, splitOn_cons_ne _ hx, splitOn_append_sep c xs b,
        splitOn_cons_ne _ hx]
      rcases hs : List.splitOn c xs with _ | ⟨y, ys⟩
      · exact absurd hs (splitOn_ne_nil c xs)
      · rfl

/-- Modify only the last element of a list of strings. -/
def modLast (f : Str → Str) : List Str → List Str
  | [] => []
  | [a] => [f a]
  | a :: b :: t => a :: modLast f (b :: t)

theorem map_modLast {β : Type} (g : Str → β) (f : Str → Str)
    (hgf : ∀ a, g (f a) = g a) : ∀ S : List Str, (modLast f S).map g = S.map g
  | [] => rfl
  | [a] => by simp [modLast, hgf]
  | a :: b :: t => by
    simp only [modLast, List.map_cons]
    rw [show (modLast f (b :: t)).map g = (b :: t).map g from map_modLast g f hgf (b :: t)]
    simp

theorem splitOn_concat_ne {x c : Char} (h : x ≠ c) :
    ∀ l : Str, List.splitOn c (l ++ [x]) = modLast (fun s => s ++ [x]) (List.splitOn c l)
  | [] => by
    rw [List.nil_append, splitOn_cons_ne _ h, splitOn_nil]
    rfl
  | a :: t => by
    by_cases ha : a = c
    · subst ha
      rw [List.cons_append, splitOn_cons_sep, splitOn_concat_ne h t, splitOn_cons_sep]
      rcases hs : List.splitOn a t with _ | ⟨y, ys⟩
      · exact absurd hs (splitOn_ne_nil a t)
      · rfl
    · rw [List.cons_append, splitOn_cons_ne _ ha, splitOn_concat_ne h t, splitOn_cons_ne _ ha]
      rcases hs : List.splitOn c t with _ | ⟨y, ys⟩
      · exact absurd hs (splitOn_ne_nil c t)
      · rcases ys with _ | ⟨z, zs⟩ <;> rfl

theorem not_mem_of_mem_splitOn {c : Char} :
    ∀ {l : Str} {s : Str}, s ∈ List.splitOn c l → c ∉ s
  | [], s, hs => by
    rw [splitOn_nil] at hs
    rcases List.mem_singleton.mp hs with rfl
    exact List.not_mem_nil c
  | a :: t, s, hs => by
    by_cases ha : a = c
    · subst ha
      rw [splitOn_cons_sep] at hs
      rcases List.mem_cons.mp hs with rfl | hmem
      · exact List.not_mem_nil a
      · exact not_mem_of_mem_splitOn hmem
    · rw [splitOn_cons_ne _ ha] at hs
      rcases hsp : List.splitOn c t with _ | ⟨y, ys⟩
      · exact absurd hsp (splitOn_ne_nil c t)
      · rw [hsp] at hs
        rcases List.mem_cons.mp hs with rfl | hmem
        · intro hmm
          rcases List.mem_cons.mp hmm with rfl | hy
          · exact ha rfl
          · exact not_mem_of_mem_splitOn (hsp ▸ List.mem_cons_self y ys) hy
        · exact not_mem_of_mem_splitOn (hsp ▸ List.mem_cons_of_mem y hmem)

theorem getLast?_splitOn (c : Char) :
    ∀ l : Str, (List.splitOn c l).getLast? =
      some ((l.reverse.takeWhile (fun a => !(a == c))).reverse)
  | [] => rfl
  | a :: t => by
    by_cases ha : a = c
    · subst ha
      rw [splitOn_cons_sep]
      rcases hsp : List.splitOn a t with _ | ⟨y, ys⟩
      · exact absurd hsp (splitOn_ne_nil a t)
      · have := getLast?_splitOn a t
        rw [hsp] at this
        rw [List.getLast?_cons_cons, this, List.reverse_cons, List.takeWhile_append]
        by_cases hfull : (t.reverse.takeWhile (fun x => !(x == a))).length = t.reverse.length
        · rw [if_pos hfull]
          have heq : t.reverse.takeWhile (fun x => !(x == a)) = t.reverse :=
            (List.takeWhile_sublist _).eq_of_length hfull
          rw [heq] at this
          rw [heq]
          simp
        · rw [if_neg hfull]
    · rw [splitOn_cons_ne _ ha]
      rcases hsp : List.splitOn c t with _ | ⟨y, ys⟩
      · exact absurd hsp (splitOn_ne_nil c t)
      · have ih := getLast?_splitOn c t
        rw [hsp] at ih
        rcases ys with _ | ⟨z, zs⟩
        · -- single fragment: no separator in t, fragment is t itself
          have ht : c ∉ t := by
            intro hmem
            have h2 : 2 ≤ (List.splitOn c t).length := by
              clear ih hsp
              induction t with
              | nil => exact absurd hmem (List.not_mem_nil c)
              | cons b bs ihb =>
                by_cases hb : b = c
                · subst hb
                  rw [splitOn_cons_sep]
                  have := splitOn_ne_nil b bs
                  rcases hq : List.splitOn b bs with _ | ⟨w, wsp⟩
                  · exact absurd hq this
                  · simp [hq]
                · rcases List.mem_cons.mp hmem with hcb | hmem2
                  · exact absurd hcb.symm hb
                  · have := ihb hmem2
                    rw [splitOn_cons_ne _ hb]
                    rcases hq : List.splitOn c bs with _ | ⟨w, wsp⟩
                    · exact absurd hq (splitOn_ne_nil c bs)
                    · rw [hq] at this
                      simpa using this
            rw [hsp] at h2
            simp at h2
          have hty : y = t := by
            have := splitOn_sep_free ht
            rw [hsp] at this
            exact (List.singleton_inj.mp this.symm).symm
          simp only [List.modifyHead, List.getLast?_singleton, hty]
          have hfull : t.reverse.takeWhile (fun x => !(x == c)) = t.reverse := by
            rw [List.takeWhile_eq_self_iff]
            intro x hx
            simp only [Bool.not_eq_eq_eq_not, Bool.not_true, beq_eq_false_iff_ne, ne_eq]
            intro hxc
            exact ht (hxc ▸ List.mem_reverse.mp hx)
          rw [List.reverse_cons, List.takeWhile_append, if_pos (by rw [hfull])]
          simp [List.takeWhile_cons, ha]
        · -- at least two fragments: last untouched by modifyHead
          simp only [List.modifyHead, List.getLast?_cons_cons] at ih ⊢
          rw [ih, List.reverse_cons, List.takeWhile_append]
          have hne : (t.reverse.takeWhile (fun x => !(x == c))).length ≠ t.reverse.length := by
            intro hfull
            have heq : t.reverse.takeWhile (fun x => !(x == c)) = t.reverse :=
              (List.takeWhile_sublist _).eq_of_length hfull
            have ht : c ∉ t := by
              intro hmem
              have h0 := List.takeWhile_eq_self_iff.mp heq c (List.mem_reverse.mpr hmem)
              simp at h0
            have := splitOn_sep_free ht
            rw [hsp] at this
            simp at this
          rw [if_neg hne]

/-! ### `startsWithStr` and `strIncludes` versus prefix and substring -/

theorem startsWithStr_iff : ∀ (h n : Str), startsWithStr h n = true ↔ n <+: h
  | h, [] => by simp [startsWithStr]
  | [], b :: bs => by simp [startsWithStr]
  | a :: as, b :: bs => by
    rw [startsWithStr, Bool.and_eq_true, beq_iff_eq, List.cons_prefix_cons,
      startsWithStr_iff as bs]
    exact and_congr_left (fun _ => eq_comm)

theorem sub_cons_iff {n t : Str} {c : Char} :
    n <:+: (c :: t) ↔ n <+: (c :: t) ∨ n <:+: t := by
  constructor
  · rintro ⟨s, u, hsu⟩
    cases s with
    | nil => exact Or.inl ⟨u, by simpa using hsu⟩
    | cons x xs =>
      simp only [List.cons_append, List.append_assoc, List.cons.injEq] at hsu
      exact Or.inr ⟨xs, u, by rw [List.append_assoc]; exact hsu.2⟩
  · rintro (⟨u, hu⟩ | ⟨s, u, hsu⟩)
    · exact ⟨[], u, by simpa using hu⟩
    · exact ⟨c :: s, u, by rw [← hsu]; simp⟩

theorem strIncludes_iff : ∀ (h n : Str), strIncludes h n = true ↔ n <:+: h
  | [], n => by
    cases n with
    | nil =>
      simp only [strIncludes, startsWithStr]
      exact iff_of_true trivial ⟨[], [], rfl⟩
    | cons b bs =>
      simp only [strIncludes, startsWithStr]
      constructor
      · intro hf; cases hf
      · rintro ⟨s, u, hsu⟩
        have := congrArg List.length hsu
        simp at this
  | c :: t, n => by
    rw [strIncludes, Bool.or_eq_true, startsWithStr_iff, strIncludes_iff t n, sub_cons_iff]

theorem strIncludes_eq_decide (h n : Str) : strIncludes h n = decide (n <:+: h) := by
  cases hc : strIncludes h n
  · rw [decide_eq_false (fun hp => by rw [(strIncludes_iff h n).mpr hp] at hc; cases hc)]
  · rw [decide_eq_true ((strIncludes_iff h n).mp hc)]

theorem eq_of_sub_of_length {a b : Str} (h : a <:+: b) (hl : a.length = b.length) :
    a = b := by
  obtain ⟨s, t, rfl⟩ := h
  simp only [List.length_append] at hl
  have hs : s = [] := List.length_eq_zero.mp (by omega)
  have ht : t = [] := List.length_eq_zero.mp (by omega)
  subst hs; subst ht
  simp

/-! ### Lemmas about the processing loop -/

theorem processOne_originalFile (env : Env) (mapping : List CSVMapping)
    (image : ImageFile) : (processOne env mapping image).originalFile = image := by
  simp only [processOne]
  split
  · split <;> rfl
  · rfl

theorem processOne_load_failed (env : Env) (mapping : List CSVMapping)
    (image : ImageFile) (hl : env.load image.preview = false) :
    (processOne env mapping image).status = PStatus.failed ∧
    (processOne env mapping image).error = some (str "Processing failed") ∧
    (processOne env mapping image).newName = resolvedBase mapping image.name := by
  have hl' : ¬ (env.load image.preview = true) := by
    rw [hl]
    exact Bool.false_ne_true
  simp only [processOne]
  rw [if_neg hl']
  exact ⟨rfl, rfl, rfl⟩

theorem processOne_newName_fallback (env : Env) (mapping : List CSVMapping)
    (image : ImageFile) (hnm : findMapping mapping image.name = none)
    (hdot : (image.name).contains '.' = true) :
    (processOne env mapping image).newName = image.name := by
  have hbase : resolvedBase mapping image.name = image.name := by
    unfold resolvedBase
    rw [hnm]
  simp only [processOne]
  rw [hbase, if_pos hdot]
  split
  · split <;> rfl
  · rfl

theorem processGo_fst (env : Env) (mapping : List CSVMapping) (total : Nat) :
    ∀ (images : List ImageFile) (i : Nat),
      (processGo env mapping total images i).1 = images.map (processOne env mapping)
  | [], _ => rfl
  | image :: rest, i => by
    simp only [processGo, List.map_cons]
    rw [processGo_fst env mapping total rest (i + 1)]

theorem processGo_snd (env : Env) (mapping : List CSVMapping) (total : Nat) :
    ∀ (images : List ImageFile) (i : Nat),
      (processGo env mapping total images i).2 =
        (List.range images.length).map
          (fun j => ((((i + j : Nat) : Rat) + 1) / (total : Rat)) * 100)
  | [], _ => rfl
  | image :: rest, i => by
    simp only [processGo, List.length_cons]
    rw [processGo_snd env mapping total rest (i + 1), List.range_succ_eq_map]
    simp only [List.map_cons, List.map_map]
    refine congrArg₂ List.cons ?_ ?_
    · norm_num
    · refine List.map_congr_left ?_
      intro j hj
      simp only [Function.comp_apply]
      congr 2
      push_cast
      ring

theorem processImages_some (env : Env) (images : List ImageFile)
    (mapping : List CSVMapping) (himg : images ≠ []) (hmap : mapping ≠ []) :
    processImages env images mapping =
      some (processGo env mapping images.length images 0) := by
  unfold processImages
  rw [if_neg]
  simp only [Bool.or_eq_true, decide_eq_true_eq, List.length_eq_zero, not_or]
  exact ⟨himg, hmap⟩

/-! ### Fixed inputs used by the witnesses -/

/-- An environment in which every load and every encode succeeds. -/
def wEnvOk : Env := ⟨fun _ => true, fun _ _ _ => some ⟨0⟩⟩

/-- An environment in which loading the preview `"badprev"` fails and
everything else succeeds. -/
def wEnvFail : Env := ⟨fun p => !(p == str "badprev"), fun _ _ _ => some ⟨1⟩⟩

/-! ### Claim C3 -/

/-- Claim C3 (counterexample): a CSV whose single data row is skipped
(both fields empty) parses to the empty mapping list, not to a
`"no valid mappings"` parse error. -/
theorem c3_counterexample : parseCSV (str "from,to\n,") = .ok [] := by decide

/-- Claim C3 (amended): when every data row is skipped, `parseCSV`
returns the empty list; it never fails with `"no valid mappings"` — its
only error messages are the insufficient-rows and too-few-columns ones. -/
theorem c3_amended_error_messages (text : Str) (e : Str)
    (h : parseCSV text = .error e) :
    e = str "CSV must have at least a header row and one data row" ∨
    e = str "CSV must have at least 2 columns" := by
  simp only [parseCSV, parseLines, parseKept] at h
  split at h
  · simp only [Except.error.injEq] at h
    exact Or.inl h.symm
  · split at h
    · simp only [Except.error.injEq] at h
      exact Or.inr h.symm
    · simp at h

/-- Witness for C3: the empty text produces the insufficient-rows error,
and that message is one of the two the theorem allows. -/
theorem c3_witness :
    parseCSV [] = .error (str "CSV must have at least a header row and one data row") ∧
    (str "CSV must have at least a header row and one data row" =
        str "CSV must have at least a header row and one data row" ∨
      str "CSV must have at least a header row and one data row" =
        str "CSV must have at least 2 columns") :=
  ⟨by decide, c3_amended_error_messages [] _ (by decide)⟩

/-! ### Claim C5 -/

/-- Claim C5 (counterexample): one image together with an empty mapping
list produces no results at all — the guard returns early — rather than
one result for the image. -/
theorem c5_counterexample :
    processImages wEnvOk [⟨str "a.png", str "p"⟩] [] = none := by decide

/-- Claim C5 (amended): when at least one image and at least one mapping
entry are present, the run produces exactly one result per input image,
in input order; an image matching no mapping entry keeps its original
file name as the resolved name (exactly, whenever that name contains a
dot). -/
theorem c5_amended_one_result_per_image (env : Env) (images : List ImageFile)
    (mapping : List CSVMapping) (himg : images ≠ []) (hmap : mapping ≠ []) :
    ∃ res prog, processImages env images mapping = some (res, prog) ∧
      res.length = images.length ∧
      (∀ i, (res.get? i).map ProcessedImage.originalFile = images.get? i) ∧
      (∀ i (hi : i < images.length),
        findMapping mapping (images.get ⟨i, hi⟩).name = none →
        ((images.get ⟨i, hi⟩).name).contains '.' = true →
        (res.get? i).map ProcessedImage.newName = some ((images.get ⟨i, hi⟩).name)) := by
  refine ⟨(processGo env mapping images.length images 0).1,
         (processGo env mapping images.length images 0).2,
         processImages_some env images mapping himg hmap, ?_, ?_, ?_⟩
  · rw [processGo_fst, List.length_map]
  · intro i
    rw [processGo_fst, List.get?_map]
    cases h : images.get? i
    · rfl
    · simp [processOne_originalFile]
  · intro i hi hnm hdot
    rw [processGo_fst, List.get?_map, List.get?_eq_get hi]
    simp only [Option.map_some']
    rw [processOne_newName_fallback env mapping _ hnm hdot]

/-- Witness for C5: a single image whose name matches no mapping entry
gets exactly one result carrying its original name. -/
theorem c5_witness :
    (([⟨str "a.png", str "p"⟩] : List ImageFile) ≠ [] ∧
      ([⟨str "zzz", str "w"⟩] : List CSVMapping) ≠ []) ∧
    (∃ res prog,
      processImages wEnvOk [⟨str "a.png", str "p"⟩] [⟨str "zzz", str "w"⟩] =
        some (res, prog) ∧
      res.length = ([⟨str "a.png", str "p"⟩] : List ImageFile).length ∧
      (∀ i, (res.get? i).map ProcessedImage.originalFile =
        ([⟨str "a.png", str "p"⟩] : List ImageFile).get? i) ∧
      (∀ i (hi : i < ([⟨str "a.png", str "p"⟩] : List ImageFile).length),
        findMapping [⟨str "zzz", str "w"⟩]
            (([⟨str "a.png", str "p"⟩] : List ImageFile).get ⟨i, hi⟩).name = none →
        ((([⟨str "a.png", str "p"⟩] : List ImageFile).get ⟨i, hi⟩).name).contains '.' = true →
        (res.get? i).map ProcessedImage.newName =
          some ((([⟨str "a.png", str "p"⟩] : List ImageFile).get ⟨i, hi⟩).name))) :=
  ⟨⟨by decide, by decide⟩,
   c5_amended_one_result_per_image wEnvOk [⟨str "a.png", str "p"⟩] [⟨str "zzz", str "w"⟩]
     (by decide) (by decide)⟩

/-! ### Claim C7 -/

/-- Claim C7 (confirmed): in any run that starts, every image gets a
result determined by its own image alone; an image whose load fails is
recorded as failed with the human-readable message `"Processing failed"`
without affecting the other results, and after every item the cumulative
progress value `((i + 1) / images.length) * 100` is published. -/
theorem c7_failure_isolation (env : Env) (images : List ImageFile)
    (mapping : List CSVMapping) (res : List ProcessedImage) (prog : List Rat)
    (h : processImages env images mapping = some (res, prog)) :
    res.length = images.length ∧ prog.length = images.length ∧
    (∀ i, res.get? i = (images.get? i).map (processOne env mapping)) ∧
    (∀ i (hi : i < images.length),
      env.load ((images.get ⟨i, hi⟩).preview) = false →
      (res.get? i).map ProcessedImage.status = some PStatus.failed ∧
      (res.get? i).map ProcessedImage.error = some (some (str "Processing failed"))) ∧
    (∀ i, i < images.length →
      prog.get? i = some ((((i : Nat) : Rat) + 1) / ((images.length : Nat) : Rat) * 100)) := by
  rw [processImages] at h
  split at h
  · cases h
  · rw [Option.some.injEq] at h
    have hres : (processGo env mapping images.length images 0).1 = res := by rw [h]
    have hprog : (processGo env mapping images.length images 0).2 = prog := by rw [h]
    refine ⟨?_, ?_, ?_, ?_, ?_⟩
    · rw [← hres, processGo_fst, List.length_map]
    · rw [← hprog, processGo_snd, List.length_map, List.length_range]
    · intro i
      rw [← hres, processGo_fst, List.get?_map]
    · intro i hi hf
      rw [← hres, processGo_fst, List.get?_map, List.get?_eq_get hi]
      obtain ⟨h1, h2, _⟩ := processOne_load_failed env mapping _ hf
      simp only [Option.map_some']
      rw [h1, h2]
      exact ⟨rfl, rfl⟩
    · intro i hi
      rw [← hprog, processGo_snd, List.get?_map, List.get?_eq_getElem?,
        List.getElem?_range hi]
      simp only [Option.map_some']
      norm_num

/-- Witness for C7: two images, the first of which fails to load; the
run still yields a result for both, the first failed with the generic
message, and the progress values 50 and 100 are published. -/
theorem c7_witness :
    processImages wEnvFail
        [⟨str "a.png", str "badprev"⟩, ⟨str "c.png", str "ok"⟩]
        [⟨str "a.png", str "x.png"⟩] =
      some ([⟨⟨str "a.png", str "badprev"⟩, str "x.png", .failed, none,
              some (str "Processing failed")⟩,
             ⟨⟨str "c.png", str "ok"⟩, str "c.png", .processed, some ⟨1⟩, none⟩],
            [(((0 : Nat) : Rat) + 1) / ((2 : Nat) : Rat) * 100,
             (((1 : Nat) : Rat) + 1) / ((2 : Nat) : Rat) * 100]) ∧
    ([⟨⟨str "a.png", str "badprev"⟩, str "x.png", .failed, none,
        some (str "Processing failed")⟩,
      ⟨⟨str "c.png", str "ok"⟩, str "c.png", .processed, some ⟨1⟩, none⟩] :
        List ProcessedImage).length =
      ([⟨str "a.png", str "badprev"⟩, ⟨str "c.png", str "ok"⟩] : List ImageFile).length ∧
    (([(((0 : Nat) : Rat) + 1) / ((2 : Nat) : Rat) * 100,
       (((1 : Nat) : Rat) + 1) / ((2 : Nat) : Rat) * 100]).get? 0 =
      some ((((0 : Nat) : Rat) + 1) /
        ((([⟨str "a.png", str "badprev"⟩, ⟨str "c.png", str "ok"⟩] :
          List ImageFile).length : Nat) : Rat) * 100)) := by
  have h := c7_failure_isolation wEnvFail
    [⟨str "a.png", str "badprev"⟩, ⟨str "c.png", str "ok"⟩]
    [⟨str "a.png", str "x.png"⟩]
    [⟨⟨str "a.png", str "badprev"⟩, str "x.png", .failed, none,
       some (str "Processing failed")⟩,
     ⟨⟨str "c.png", str "ok"⟩, str "c.png", .processed, some ⟨1⟩, none⟩]
    [(((0 : Nat) : Rat) + 1) / ((2 : Nat) : Rat) * 100,
     (((1 : Nat) : Rat) + 1) / ((2 : Nat) : Rat) * 100] (by rfl)
  exact ⟨by rfl, h.1, h.2.2.2.2 0 (by decide)⟩

/-! ### Claim C8 -/

/-- The `(resolvedName, outputBytes)` pairs of the succeeded results, in
result order (the collection described by the specification). -/
def succeededPairs (results : List ProcessedImage) : List (Str × Blob) :=
  results.filterMap (fun p =>
    if p.status = PStatus.processed then p.blob.map (fun b => (p.newName, b)) else none)

theorem zipFile_fresh (zip : List (Str × Blob)) (n : Str) (b : Blob)
    (h : ∀ e ∈ zip, e.1 ≠ n) : zipFile zip n b = zip ++ [(n, b)] := by
  unfold zipFile
  rw [if_neg]
  simp only [List.any_eq_true, beq_iff_eq, not_exists, not_and]
  exact fun e he => h e he

theorem succeededPairs_eq_aux (results : List ProcessedImage) :
    succeededPairs results =
      (results.filter
        (fun img => decide (img.status = PStatus.processed) && img.blob.isSome)).filterMap
        (fun p => p.blob.map (fun b => (p.newName, b))) := by
  induction results with
  | nil => rfl
  | cons p rest ih =>
    simp only [succeededPairs, List.filterMap_cons, List.filter_cons] at *
    by_cases hs : p.status = PStatus.processed
    · cases hb : p.blob with
      | none => simp [hs, hb, ih]
      | some b => simp [hs, hb, ih]
    · simp [hs, ih]

theorem zipStep_none {p : ProcessedImage} (z : List (Str × Blob)) (hb : p.blob = none) :
    zipStep z p = z := by
  simp [zipStep, hb]

theorem zipStep_some {p : ProcessedImage} {b : Blob} (z : List (Str × Blob))
    (hb : p.blob = some b) : zipStep z p = zipFile z p.newName b := by
  simp [zipStep, hb]

theorem foldl_zip_eq_append :
    ∀ (l : List ProcessedImage) (acc : List (Str × Blob)),
      (∀ e ∈ acc, ∀ q ∈ l.filterMap (fun p => p.blob.map (fun b => (p.newName, b))),
        e.1 ≠ q.1) →
      (l.filterMap (fun p => p.blob.map (fun b => (p.newName, b)))).Pairwise
        (fun a b => a.1 ≠ b.1) →
      l.foldl zipStep acc =
        acc ++ l.filterMap (fun p => p.blob.map (fun b => (p.newName, b)))
  | [], acc, _, _ => by simp
  | p :: rest, acc, hacc, hpw => by
    rw [List.foldl_cons]
    cases hb : p.blob with
    | none =>
      have haux : (p :: rest).filterMap (fun p => p.blob.map (fun b => (p.newName, b))) =
          rest.filterMap (fun p => p.blob.map (fun b => (p.newName, b))) := by
        rw [List.filterMap_cons_none (by rw [hb]; rfl)]
      rw [haux] at hacc hpw
      rw [zipStep_none acc hb, haux]
      exact foldl_zip_eq_append rest acc hacc hpw
    | some b =>
      have haux : (p :: rest).filterMap (fun p => p.blob.map (fun b => (p.newName, b))) =
          (p.newName, b) :: rest.filterMap (fun p => p.blob.map (fun b => (p.newName, b))) := by
        rw [List.filterMap_cons_some (by rw [hb]; rfl)]
      rw [haux] at hacc hpw
      rw [List.pairwise_cons] at hpw
      have hfresh : ∀ e ∈ acc, e.1 ≠ p.newName := by
        intro e he
        exact hacc e he (p.newName, b) (List.mem_cons_self _ _)
      rw [zipStep_some acc hb, zipFile_fresh acc p.newName b hfresh, haux]
      rw [foldl_zip_eq_append rest (acc ++ [(p.newName, b)]) ?_ hpw.2]
      · rw [List.append_assoc, List.singleton_append]
      · intro e he q hq
        rcases List.mem_append.mp he with hel | her
        · exact hacc e hel q (List.mem_cons_of_mem _ hq)
        · rcases List.mem_singleton.mp her with rfl
          exact hpw.1 q hq

/-- Claim C8 (counterexample): called with zero results, `downloadAll`
is not a no-op — it still saves an (empty) archive named
`renamed-images.zip`. -/
theorem c8_counterexample :
    downloadAll [] ≠ [] ∧ downloadAll [] = [⟨[], str "renamed-images.zip"⟩] := by
  refine ⟨?_, by decide⟩
  decide

/-- Claim C8 (amended): `downloadAll` collects exactly the
`(resolvedName, blob)` pairs of the succeeded results (those with status
processed and a blob), in order, into one archive saved under the fixed
name `renamed-images.zip` — provided the succeeded names are pairwise
distinct; with zero succeeded results it still saves an empty archive
(the surrounding UI merely hides the button). -/
theorem c8_amended_archive (results : List ProcessedImage)
    (hnodup : (succeededPairs results).Pairwise (fun a b => a.1 ≠ b.1)) :
    downloadAll results = [⟨succeededPairs results, str "renamed-images.zip"⟩] := by
  simp only [downloadAll]
  have hpairs := succeededPairs_eq_aux results
  rw [hpairs] at hnodup ⊢
  rw [foldl_zip_eq_append _ [] (by intro e he; cases he) hnodup, List.nil_append]

/-- Witness for C8: two succeeded results with distinct names and one
failed result produce an archive with exactly the two succeeded pairs. -/
theorem c8_witness :
    (succeededPairs
        [⟨⟨str "a.png", str "p"⟩, str "x.png", .processed, some ⟨3⟩, none⟩,
         ⟨⟨str "b.png", str "q"⟩, str "b.png", .failed, none, some (str "Processing failed")⟩,
         ⟨⟨str "c.png", str "r"⟩, str "y.png", .processed, some ⟨4⟩, none⟩]).Pairwise
      (fun a b => a.1 ≠ b.1) ∧
    downloadAll
        [⟨⟨str "a.png", str "p"⟩, str "x.png", .processed, some ⟨3⟩, none⟩,
         ⟨⟨str "b.png", str "q"⟩, str "b.png", .failed, none, some (str "Processing failed")⟩,
         ⟨⟨str "c.png", str "r"⟩, str "y.png", .processed, some ⟨4⟩, none⟩] =
      [⟨succeededPairs
          [⟨⟨str "a.png", str "p"⟩, str "x.png", .processed, some ⟨3⟩, none⟩,
           ⟨⟨str "b.png", str "q"⟩, str "b.png", .failed, none, some (str "Processing failed")⟩,
           ⟨⟨str "c.png", str "r"⟩, str "y.png", .processed, some ⟨4⟩, none⟩],
        str "renamed-images.zip"⟩] :=
  ⟨by decide,
   c8_amended_archive
     [⟨⟨str "a.png", str "p"⟩, str "x.png", .processed, some ⟨3⟩, none⟩,
      ⟨⟨str "b.png", str "q"⟩, str "b.png", .failed, none, some (str "Processing failed")⟩,
      ⟨⟨str "c.png", str "r"⟩, str "y.png", .processed, some ⟨4⟩, none⟩]
     (by decide)⟩

/-! ### Claim C10 -/

theorem stripExt_eq_or_short (f : Str) :
    stripExt f = f ∨ (stripExt f).length + 2 ≤ f.length := by
  simp only [stripExt]
  split
  · exact Or.inl rfl
  · split
    · exact Or.inl rfl
    · rename_i h1 h2
      right
      simp only [Bool.or_eq_true, not_or, Bool.not_eq_true, List.isEmpty_eq_false] at h2
      have hpos : 0 < (f.reverse.takeWhile (fun c => !(c == '.'))).length :=
        List.length_pos.mpr h2.1
      have hle : (f.reverse.takeWhile (fun c => !(c == '.'))).length ≤ f.reverse.length :=
        (List.takeWhile_sublist _).length_le
      rw [List.length_reverse] at hle
      rw [List.length_reverse] at h1
      rw [List.length_reverse, List.length_drop, List.length_reverse]
      omega

/-- Claim C10 (counterexample): the mapping entry `aba` differs from the
stem `aBa` of the file name `aBa.aba` only in letter case, yet it does
match — it occurs verbatim inside the extension — so the image does not
fall back to its original name. -/
theorem c10_counterexample :
    str "aba" ≠ stripExt (str "aBa.aba") ∧
    toLowerStr (str "aba") = toLowerStr (stripExt (str "aBa.aba")) ∧
    resolvedBase [⟨str "aba", str "x"⟩] (str "aBa.aba") = str "x" := by
  refine ⟨by decide, by decide, by decide⟩

/-- Claim C10 (amended): resolution is case-sensitive — an entry whose
`currentName` differs from the full file name only in letter case (equal
lower-casings but not equal) matches no rule at all, so with such an
entry alone the image falls back to its original name; an entry
case-differing from the stem, however, can still match as a substring
occurring elsewhere in the file name (for example inside the extension). -/
theorem c10_amended_case_sensitive (c n f : Str) (hne : c ≠ f)
    (hlow : toLowerStr c = toLowerStr f) :
    entryMatches f ⟨c, n⟩ = false ∧ resolvedBase [⟨c, n⟩] f = f := by
  have hlen : c.length = f.length := by
    have h0 := congrArg List.length hlow
    simpa [toLowerStr] using h0
  have h1 : (c == f) = false := beq_eq_false_iff_ne.mpr hne
  have hstem := stripExt_eq_or_short f
  have h2 : (c == stripExt f) = false := by
    rcases hstem with he | hs
    · rw [he]
      exact beq_eq_false_iff_ne.mpr hne
    · refine beq_eq_false_iff_ne.mpr (fun hc => ?_)
      rw [hc] at hlen
      omega
  have h3 : strIncludes f c = false := by
    cases hin : strIncludes f c
    · rfl
    · exact absurd (eq_of_sub_of_length ((strIncludes_iff f c).mp hin) hlen) hne
  have h4 : strIncludes (stripExt f) c = false := by
    cases hin : strIncludes (stripExt f) c
    · rfl
    · exfalso
      have hsub := (strIncludes_iff _ c).mp hin
      have hle := hsub.length_le
      rcases hstem with he | hs
      · exact hne (eq_of_sub_of_length (he ▸ hsub) hlen)
      · omega
  have hmain : entryMatches f ⟨c, n⟩ = false := by
    unfold entryMatches
    dsimp only
    rw [h1, h2, h3, h4]
    rfl
  refine ⟨hmain, ?_⟩
  have hm : findMapping [⟨c, n⟩] f = none := by
    unfold findMapping
    rw [List.find?_cons_of_neg _ (by rw [hmain]; exact Bool.false_ne_true)]
    rfl
  unfold resolvedBase
  rw [hm]

/-- Witness for C10: `A.png` differs from `a.png` only in case; the
entry matches nothing and the image keeps its original name. -/
theorem c10_witness :
    (str "A.png" ≠ str "a.png" ∧
      toLowerStr (str "A.png") = toLowerStr (str "a.png")) ∧
    (entryMatches (str "a.png") ⟨str "A.png", str "x"⟩ = false ∧
      resolvedBase [⟨str "A.png", str "x"⟩] (str "a.png") = str "a.png") :=
  ⟨⟨by decide, by decide⟩,
   c10_amended_case_sensitive (str "A.png") (str "x") (str "a.png") (by decide) (by decide)⟩

/-! ### Extension lemmas, claims C2 and C6 -/

/-- The segment of a name after its last dot (the whole name when there
is no dot). -/
def extSeg (f : Str) : Str := (f.reverse.takeWhile (fun c => !(c == '.'))).reverse

/-- The output extension as the specification words it: the substring
after the last `.` of the original name, lower-cased (the whole
lower-cased name when there is no dot), with `jpg` substituted when that
segment is empty. -/
def specOutputExt (f : Str) : Str :=
  let seg := toLowerStr (extSeg f)
  if seg.isEmpty then str "jpg" else seg

theorem toNat_ofNat_valid {m : Nat} (h : m.isValidChar) : (Char.ofNat m).toNat = m := by
  unfold Char.ofNat
  rw [dif_pos h]
  rfl

theorem toLower_eq_dot {c : Char} (h : Char.toLower c = '.') : c = '.' := by
  simp only [Char.toLower] at h
  split at h
  · exfalso
    rename_i hc
    have hv : (c.toNat + 32).isValidChar := Or.inl (by omega)
    have h2 := congrArg Char.toNat h
    rw [toNat_ofNat_valid hv] at h2
    have h46 : ('.' : Char).toNat = 46 := by decide
    rw [h46] at h2
    omega
  · exact h

theorem dot_not_mem_map_toLower {s : Str} (h : '.' ∉ s) :
    '.' ∉ s.map Char.toLower := by
  intro hm
  rcases List.mem_map.mp hm with ⟨c, hc, hcl⟩
  exact h (toLower_eq_dot hcl ▸ hc)

theorem extOf_ne_nil (f : Str) : extOf f ≠ [] := by
  unfold extOf
  rcases hl : (List.splitOn '.' f).getLast? with _ | s
  · decide
  · dsimp only
    split
    · decide
    · rename_i hns
      simp only [List.isEmpty_iff] at hns
      exact hns

theorem dot_not_mem_extOf (f : Str) : '.' ∉ extOf f := by
  unfold extOf
  rcases hl : (List.splitOn '.' f).getLast? with _ | s
  · decide
  · have hmem : s ∈ List.splitOn '.' f := by
      rcases List.getLast?_eq_some_iff.mp hl with ⟨ys, hys⟩
      rw [hys]
      exact List.mem_append.mpr (Or.inr (List.mem_singleton.mpr rfl))
    have hnd : '.' ∉ s := not_mem_of_mem_splitOn hmem
    dsimp only
    split
    · decide
    · exact dot_not_mem_map_toLower hnd

theorem extSeg_append_ext {base ext : Str} (hext : '.' ∉ ext) :
    extSeg (base ++ '.' :: ext) = ext := by
  unfold extSeg
  rw [List.reverse_append, List.reverse_cons, List.append_assoc, List.singleton_append]
  rw [List.takeWhile_append_of_pos (by
    intro a ha
    simp only [Bool.not_eq_eq_eq_not, Bool.not_true, beq_eq_false_iff_ne, ne_eq]
    intro hc
    exact hext (hc ▸ List.mem_reverse.mp ha))]
  rw [List.takeWhile_cons_of_neg (by simp), List.append_nil, List.reverse_reverse]

theorem extOf_eq_specOutputExt (f : Str) : extOf f = specOutputExt f := by
  unfold extOf specOutputExt extSeg toLowerStr
  rw [getLast?_splitOn]

theorem processOne_status_processed_load (env : Env) (mapping : List CSVMapping)
    (image : ImageFile) (hs : (processOne env mapping image).status = PStatus.processed) :
    env.load image.preview = true := by
  cases hlc : env.load image.preview
  · have hfail := (processOne_load_failed env mapping image hlc).1
    rw [hs] at hfail
    cases hfail
  · rfl

theorem processOne_newName_load_ok (env : Env) (mapping : List CSVMapping)
    (image : ImageFile) (hl : env.load image.preview = true) :
    (processOne env mapping image).newName =
      if List.contains (resolvedBase mapping image.name) '.' = true
      then resolvedBase mapping image.name
      else resolvedBase mapping image.name ++ '.' :: extOf image.name := by
  simp only [processOne]
  rw [if_pos hl]
  split <;> rfl

/-- Claim C2 (counterexample): for the extensionless original name
`photo` mapped to `pic`, the appended extension is the whole lower-cased
file name — the result is `pic.photo`, not the claimed default
`pic.jpg`. -/
theorem c2_counterexample :
    (processOne wEnvOk [⟨str "photo", str "pic"⟩] ⟨str "photo", str "p"⟩).newName =
      str "pic.photo" ∧
    (processOne wEnvOk [⟨str "photo", str "pic"⟩] ⟨str "photo", str "p"⟩).newName ≠
      str "pic.jpg" := by
  refine ⟨by decide, by decide⟩

/-- Claim C2 (amended): for every image whose load succeeds, the output
extension is the lower-cased segment of the original name after its last
dot — the whole lower-cased name when there is no dot — with `jpg`
substituted only when that segment is empty; a resolved name already
containing a `.` is kept as-is, otherwise `.` plus that extension is
appended. -/
theorem c2_amended_extension (env : Env) (mapping : List CSVMapping)
    (image : ImageFile) (hl : env.load image.preview = true) :
    (processOne env mapping image).newName =
      if List.contains (resolvedBase mapping image.name) '.' = true
      then resolvedBase mapping image.name
      else resolvedBase mapping image.name ++ '.' :: specOutputExt image.name := by
  rw [processOne_newName_load_ok env mapping image hl, extOf_eq_specOutputExt]

/-- Witness for C2: original `photo.PNG` with mapped name `pic` (no
dot) — the lower-cased original extension `png` is appended. -/
theorem c2_witness :
    wEnvOk.load (str "p") = true ∧
    (processOne wEnvOk [⟨str "photo.PNG", str "pic"⟩] ⟨str "photo.PNG", str "p"⟩).newName =
      (if List.contains (resolvedBase [⟨str "photo.PNG", str "pic"⟩] (str "photo.PNG")) '.' =
          true
       then resolvedBase [⟨str "photo.PNG", str "pic"⟩] (str "photo.PNG")
       else resolvedBase [⟨str "photo.PNG", str "pic"⟩] (str "photo.PNG") ++
         '.' :: specOutputExt (str "photo.PNG")) :=
  ⟨rfl, c2_amended_extension wEnvOk [⟨str "photo.PNG", str "pic"⟩]
    ⟨str "photo.PNG", str "p"⟩ rfl⟩

/-- Claim C6 (counterexample): a succeeded result can carry a resolved
name whose segment after the last dot is empty — the mapped name `pic.`
contains a dot, is kept as-is, and has an empty extension segment. -/
theorem c6_counterexample :
    (processOne wEnvOk [⟨str "a.png", str "pic."⟩] ⟨str "a.png", str "p"⟩).status =
      PStatus.processed ∧
    (processOne wEnvOk [⟨str "a.png", str "pic."⟩] ⟨str "a.png", str "p"⟩).newName =
      str "pic." ∧
    extSeg ((processOne wEnvOk [⟨str "a.png", str "pic."⟩] ⟨str "a.png", str "p"⟩).newName) =
      [] := by
  refine ⟨by decide, by decide, by decide⟩

/-- Claim C6 (amended): every succeeded result's resolved name contains
a dot, and whenever the resolved base name had no dot, the appended
extension is exactly the computed original-extension and the segment
after the last dot is non-empty; but a base name that already contains a
dot is kept as-is and may end with a dot (empty final segment), and a
failed result may lack an extension entirely. -/
theorem c6_amended_extension_invariant (env : Env) (mapping : List CSVMapping)
    (image : ImageFile)
    (hs : (processOne env mapping image).status = PStatus.processed) :
    List.contains ((processOne env mapping image).newName) '.' = true ∧
    (List.contains (resolvedBase mapping image.name) '.' = false →
      extSeg ((processOne env mapping image).newName) = extOf image.name ∧
      extSeg ((processOne env mapping image).newName) ≠ []) := by
  have hl := processOne_status_processed_load env mapping image hs
  rw [processOne_newName_load_ok env mapping image hl]
  by_cases hdot : List.contains (resolvedBase mapping image.name) '.' = true
  · rw [if_pos hdot]
    exact ⟨hdot, fun hc => absurd hdot (by rw [hc]; exact Bool.false_ne_true)⟩
  · rw [if_neg hdot]
    constructor
    · have hmem : '.' ∈ resolvedBase mapping image.name ++ '.' :: extOf image.name :=
        List.mem_append.mpr (Or.inr (List.mem_cons_self _ _))
      exact List.elem_eq_true_of_mem hmem
    · intro _
      refine ⟨extSeg_append_ext (dot_not_mem_extOf image.name), ?_⟩
      rw [extSeg_append_ext (dot_not_mem_extOf image.name)]
      exact extOf_ne_nil image.name

/-- Witness for C6: mapped name `pic` (no dot) for original `a.png` —
the succeeded result's name contains a dot and its extension segment is
the non-empty `png`. -/
theorem c6_witness :
    (processOne wEnvOk [⟨str "a.png", str "pic"⟩] ⟨str "a.png", str "p"⟩).status =
      PStatus.processed ∧
    (List.contains
        ((processOne wEnvOk [⟨str "a.png", str "pic"⟩] ⟨str "a.png", str "p"⟩).newName) '.' =
      true ∧
    (List.contains (resolvedBase [⟨str "a.png", str "pic"⟩] (str "a.png")) '.' = false →
      extSeg ((processOne wEnvOk [⟨str "a.png", str "pic"⟩] ⟨str "a.png", str "p"⟩).newName) =
        extOf (str "a.png") ∧
      extSeg ((processOne wEnvOk [⟨str "a.png", str "pic"⟩] ⟨str "a.png", str "p"⟩).newName) ≠
        [])) :=
  ⟨by decide,
   c6_amended_extension_invariant wEnvOk [⟨str "a.png", str "pic"⟩] ⟨str "a.png", str "p"⟩
     (by decide)⟩

/-! ### Claim C4 -/

/-- The resolver's matching rule as the specification words it: equality
with the file name, equality with the stem, or substring containment in
the file name or in the stem. -/
def specMatches (originalFileName : Str) (m : CSVMapping) : Bool :=
  decide (m.currentName = originalFileName) ||
  decide (m.currentName = stripExt originalFileName) ||
  decide (m.currentName <:+: originalFileName) ||
  decide (m.currentName <:+: stripExt originalFileName)

theorem beq_eq_decide_eq (a b : Str) : (a == b) = decide (a = b) := by
  by_cases h : a = b <;> simp [h]

theorem entryMatches_eq_specMatches (f : Str) (m : CSVMapping) :
    entryMatches f m = specMatches f m := by
  unfold entryMatches specMatches
  dsimp only
  rw [beq_eq_decide_eq, beq_eq_decide_eq, strIncludes_eq_decide, strIncludes_eq_decide]

theorem find?_congr_pred {α : Type} (p q : α → Bool) (h : ∀ a, p a = q a) :
    ∀ l : List α, l.find? p = l.find? q
  | [] => rfl
  | a :: t => by rw [List.find?_cons, List.find?_cons, h a, find?_congr_pred p q h t]

/-- Claim C4 (confirmed): the resolver is a single ordered linear scan
returning the first entry satisfying any of the four rules — exactly
`List.find?` with the specification's disjunctive predicate (so it
returns no match precisely when no entry satisfies any rule) — and an
earlier entry matching only by substring beats a later entry matching by
equality, as in the concrete tie-break below. -/
theorem c4_resolver_first_match (originalFileName : Str) (mapping : List CSVMapping) :
    findMapping mapping originalFileName =
      mapping.find? (specMatches originalFileName) ∧
    findMapping [⟨str "mage", str "a"⟩, ⟨str "image1.png", str "b"⟩] (str "image1.png") =
      some ⟨str "mage", str "a"⟩ := by
  constructor
  · unfold findMapping
    exact find?_congr_pred _ _ (entryMatches_eq_specMatches originalFileName) mapping
  · decide

/-! ### Per-line equivalence and parser congruence (for claims C1, C9) -/

/-- Two raw lines are interchangeable for the parser when they agree on
blankness and on their trimmed comma-split columns. -/
def lineEquiv (a b : Str) : Prop :=
  (trim a).isEmpty = (trim b).isEmpty ∧
  (List.splitOn ',' a).map trim = (List.splitOn ',' b).map trim

theorem lineEquiv_refl (a : Str) : lineEquiv a a := ⟨rfl, rfl⟩

theorem forall₂_lineEquiv_refl : ∀ L : List Str, List.Forall₂ lineEquiv L L
  | [] => .nil
  | a :: t => .cons (lineEquiv_refl a) (forall₂_lineEquiv_refl t)

theorem map_trim_modifyHead_ws {w : Char} (hw : isJsWhitespace w = true) :
    ∀ S : List Str, (S.modifyHead (List.cons w)).map trim = S.map trim
  | [] => rfl
  | s :: ss => by
    simp only [List.modifyHead, List.map_cons]
    rw [trim_cons_ws hw]

theorem lineEquiv_cons_ws {w : Char} (hw : isJsWhitespace w = true) (hc : w ≠ ',')
    (a : Str) : lineEquiv (w :: a) a := by
  constructor
  · rw [trim_cons_ws hw]
  · rw [splitOn_cons_ne _ hc, map_trim_modifyHead_ws hw]

theorem lineEquiv_append_cr (a : Str) : lineEquiv (a ++ ['\r']) a := by
  constructor
  · rw [trim_append_ws (by decide)]
  · rw [splitOn_concat_ne (by decide) a,
      map_modLast trim _ (fun s => trim_append_ws (by decide))]

theorem parseRow_congr (u v : Nat) {x y : Str} (h : lineEquiv x y) :
    parseRow u v x = parseRow u v y := by
  simp only [parseRow]
  rw [h.2]

theorem filterMap_congr_forall₂ {g : Str → Option CSVMapping}
    (hg : ∀ x y, lineEquiv x y → g x = g y) :
    ∀ {L₁ L₂ : List Str}, List.Forall₂ lineEquiv L₁ L₂ →
      L₁.filterMap g = L₂.filterMap g
  | _, _, .nil => rfl
  | _, _, .cons hab hrest => by
    rename_i x y t₁ t₂
    rw [List.filterMap_cons, List.filterMap_cons, hg x y hab,
      filterMap_congr_forall₂ hg hrest]

theorem forall₂_filter {p : Str → Bool} (hp : ∀ x y, lineEquiv x y → p x = p y) :
    ∀ {L₁ L₂ : List Str}, List.Forall₂ lineEquiv L₁ L₂ →
      List.Forall₂ lineEquiv (L₁.filter p) (L₂.filter p)
  | _, _, .nil => .nil
  | _, _, .cons hab hrest => by
    rename_i x y t₁ t₂
    rw [List.filter_cons, List.filter_cons, hp x y hab]
    cases hpy : p y with
    | false =>
      simp only [Bool.false_eq_true, if_false]
      exact forall₂_filter hp hrest
    | true =>
      simp only [if_true]
      exact .cons hab (forall₂_filter hp hrest)

theorem parseKept_congr : ∀ {L₁ L₂ : List Str}, List.Forall₂ lineEquiv L₁ L₂ →
    parseKept L₁ = parseKept L₂
  | _, _, .nil => rfl
  | _, _, .cons hab hrest => by
    rename_i a b t₁ t₂
    simp only [parseKept]
    have hlen : t₁.length = t₂.length := hrest.length_eq
    by_cases hc : (a :: t₁).length < 2
    · have hc2 : (b :: t₂).length < 2 := by
        simp only [List.length_cons] at hc ⊢
        omega
      rw [if_pos hc]
      rw [if_pos hc2]
    · have hc2 : ¬ (b :: t₂).length < 2 := by
        simp only [List.length_cons] at hc ⊢
        omega
      conv_lhs => rw [if_neg hc]
      conv_rhs => rw [if_neg hc2]
      have hheads :
          (List.splitOn ',' ((a :: t₁).headD [])).map (fun h => toLowerStr (trim h)) =
            (List.splitOn ',' ((b :: t₂).headD [])).map (fun h => toLowerStr (trim h)) := by
        simp only [List.headD_cons]
        calc (List.splitOn ',' a).map (fun h => toLowerStr (trim h))
            = ((List.splitOn ',' a).map trim).map toLowerStr := by
              rw [List.map_map]
              rfl
          _ = ((List.splitOn ',' b).map trim).map toLowerStr := by rw [hab.2]
          _ = (List.splitOn ',' b).map (fun h => toLowerStr (trim h)) := by
              rw [List.map_map]
              rfl
      rw [hheads]
      split
      · rfl
      · simp only [List.drop_one, List.tail_cons]
        exact congrArg Except.ok
          (filterMap_congr_forall₂ (fun x y hxy => parseRow_congr _ _ hxy) hrest)

theorem parseLines_congr {L₁ L₂ : List Str} (h : List.Forall₂ lineEquiv L₁ L₂) :
    parseLines L₁ = parseLines L₂ := by
  unfold parseLines
  exact parseKept_congr (forall₂_filter (fun x y hxy => by simp only [hxy.1]) h)

/-! ### Claim C9 -/

/-- Replace every LF line ending with a CR-LF pair. -/
def toCRLF : Str → Str
  | [] => []
  | c :: t => if c = '\n' then '\r' :: '\n' :: toCRLF t else c :: toCRLF t

/-- Append a trailing CR to every line except the last. -/
def addCRbutLast : List Str → List Str
  | [] => []
  | [a] => [a]
  | a :: b :: t => (a ++ ['\r']) :: addCRbutLast (b :: t)

theorem splitOn_toCRLF : ∀ text : Str,
    List.splitOn '\n' (toCRLF text) = addCRbutLast (List.splitOn '\n' text)
  | [] => rfl
  | c :: t => by
    by_cases hc : c = '\n'
    · subst hc
      rw [show toCRLF ('\n' :: t) = '\r' :: '\n' :: toCRLF t by simp [toCRLF]]
      rw [splitOn_cons_ne _ (show ('\r' : Char) ≠ '\n' by decide)]
      rw [splitOn_cons_sep, splitOn_toCRLF t, splitOn_cons_sep]
      rcases hsp : List.splitOn '\n' t with _ | ⟨x, xs⟩
      · exact absurd hsp (splitOn_ne_nil _ _)
      · simp only [List.modifyHead, addCRbutLast, List.nil_append]
    · rw [show toCRLF (c :: t) = c :: toCRLF t by simp [toCRLF, hc]]
      rw [splitOn_cons_ne _ hc, splitOn_cons_ne _ hc, splitOn_toCRLF t]
      rcases hsp : List.splitOn '\n' t with _ | ⟨x, xs⟩
      · exact absurd hsp (splitOn_ne_nil _ _)
      · rcases xs with _ | ⟨y, ys⟩
        · simp [addCRbutLast, List.modifyHead]
        · simp [addCRbutLast, List.modifyHead, List.cons_append]

theorem forall₂_addCRbutLast : ∀ L : List Str, List.Forall₂ lineEquiv (addCRbutLast L) L
  | [] => .nil
  | [a] => .cons (lineEquiv_refl a) .nil
  | a :: b :: t => .cons (lineEquiv_append_cr a) (forall₂_addCRbutLast (b :: t))

theorem parseCSV_bom (text : Str) :
    parseCSV (Char.ofNat 0xFEFF :: text) = parseCSV text := by
  unfold parseCSV
  rw [splitOn_cons_ne _ (by decide)]
  rcases hsp : List.splitOn '\n' text with _ | ⟨l₀, rest⟩
  · exact absurd hsp (splitOn_ne_nil _ _)
  · simp only [List.modifyHead]
    exact parseLines_congr (.cons (lineEquiv_cons_ws (by decide) (by decide) l₀)
      (forall₂_lineEquiv_refl rest))

theorem parseCSV_crlf (text : Str) : parseCSV (toCRLF text) = parseCSV text := by
  unfold parseCSV
  rw [splitOn_toCRLF]
  exact parseLines_congr (forall₂_addCRbutLast _)

theorem parseCSV_blank_line (pre w post : Str)
    (hw : ∀ c ∈ w, isJsWhitespace c = true) (hwn : '\n' ∉ w) :
    parseCSV (pre ++ '\n' :: (w ++ '\n' :: post)) = parseCSV (pre ++ '\n' :: post) := by
  unfold parseCSV parseLines
  congr 1
  rw [splitOn_append_sep '\n' pre (w ++ '\n' :: post), splitOn_append_sep '\n' w post,
    splitOn_append_sep '\n' pre post, splitOn_sep_free hwn]
  rw [List.filter_append, List.filter_append, List.filter_append]
  have hw0 : (!(trim w).isEmpty) = false := by
    simp [trim_eq_nil_of_all_ws hw]
  simp only [List.filter_cons, List.filter_nil, hw0, Bool.false_eq_true, if_false,
    List.nil_append]

/-- Claim C9 (confirmed): the parser's observable behaviour is as if a
leading byte-order-mark were stripped, lines were split on CR-LF as well
as LF, and blank or whitespace-only lines were discarded: a leading BOM
never changes the result (the per-field trim removes it before column
detection), CR-LF input parses exactly like LF input, inserting a
whitespace-only line changes nothing, and a BOM-prefixed header is
matched by the column-detection rules as if the BOM were absent. -/
theorem c9_preprocessing :
    (∀ text : Str, parseCSV (Char.ofNat 0xFEFF :: text) = parseCSV text) ∧
    (∀ text : Str, parseCSV (toCRLF text) = parseCSV text) ∧
    (∀ pre w post : Str, (∀ c ∈ w, isJsWhitespace c = true) → '\n' ∉ w →
      parseCSV (pre ++ '\n' :: (w ++ '\n' :: post)) = parseCSV (pre ++ '\n' :: post)) ∧
    parseCSV (Char.ofNat 0xFEFF :: str "from,to\nx,y") = .ok [⟨str "x", str "y"⟩] :=
  ⟨parseCSV_bom, parseCSV_crlf, parseCSV_blank_line, by decide⟩

/-- Witness for C9: concrete instances — a BOM-prefixed text, a CR-LF
text, and an inserted whitespace-only line each parse identically to
their plain counterparts. -/
theorem c9_witness :
    parseCSV (Char.ofNat 0xFEFF :: str "from,to\nu,vv") = parseCSV (str "from,to\nu,vv") ∧
    parseCSV (toCRLF (str "from,to\nu,vv")) = parseCSV (str "from,to\nu,vv") ∧
    ((∀ c ∈ str " ", isJsWhitespace c = true) ∧ '\n' ∉ str " ") ∧
    parseCSV (str "a,b" ++ '\n' :: (str " " ++ '\n' :: str "c,d")) =
      parseCSV (str "a,b" ++ '\n' :: str "c,d") :=
  ⟨c9_preprocessing.1 (str "from,to\nu,vv"),
   c9_preprocessing.2.1 (str "from,to\nu,vv"),
   ⟨by decide, by decide⟩,
   c9_preprocessing.2.2.1 (str "a,b") (str " ") (str "c,d") (by decide) (by decide)⟩

/-! ### Claim C1 -/

/-- A character that is inert for the parser: not whitespace, not a
comma, semicolon or newline, and not a quote character. -/
def plainChar (c : Char) : Bool :=
  !isJsWhitespace c && decide (c ≠ ',') && decide (c ≠ ';') && decide (c ≠ '\n') &&
  decide (c.toNat ≠ 39) && decide (c.toNat ≠ 34)

theorem plainChar_spec {c : Char} (h : plainChar c = true) :
    isJsWhitespace c = false ∧ c ≠ ',' ∧ c ≠ ';' ∧ c ≠ '\n' ∧
    c.toNat ≠ 39 ∧ c.toNat ≠ 34 := by
  simp only [plainChar, Bool.and_eq_true, decide_eq_true_eq, Bool.not_eq_true'] at h
  exact ⟨h.1.1.1.1.1, h.1.1.1.1.2, h.1.1.1.2, h.1.1.2, h.1.2, h.2⟩

theorem stripQuotes_eq_self {s : Str} (h : ∀ c ∈ s, plainChar c = true) :
    stripQuotes s = s := by
  unfold stripQuotes
  rw [List.filter_eq_self]
  intro c hc
  have hs := plainChar_spec (h c hc)
  simp [hs.2.2.2.2.1, hs.2.2.2.2.2]

/-- Claim C1 (counterexample): there is no delimiter detection — for the
semicolon-dominant header `a;b;c` the parser still splits on commas,
sees a single header column, and fails, instead of selecting `;`. -/
theorem c1_counterexample :
    parseCSV (str "a;b;c\nx;y;z") = .error (str "CSV must have at least 2 columns") := by
  decide

/-- Claim C1 (amended): the parser always splits the header and every
data line on commas, with no delimiter detection: a comma-separated
two-column CSV parses into its pair, while the same content delimited by
semicolons fails with the too-few-columns error. -/
theorem c1_amended_comma_split (a b : Str) (ha : a ≠ []) (hb : b ≠ [])
    (hpa : ∀ c ∈ a, plainChar c = true) (hpb : ∀ c ∈ b, plainChar c = true) :
    parseCSV (str "from,to" ++ '\n' :: (a ++ ',' :: b)) = .ok [⟨a, b⟩] ∧
    parseCSV (str "from;to" ++ '\n' :: (a ++ ';' :: b)) =
      .error (str "CSV must have at least 2 columns") := by
  have hwa : ∀ c ∈ a, isJsWhitespace c = false := fun c hc => (plainChar_spec (hpa c hc)).1
  have hwb : ∀ c ∈ b, isJsWhitespace c = false := fun c hc => (plainChar_spec (hpb c hc)).1
  have hca : ',' ∉ a := fun hm => (plainChar_spec (hpa ',' hm)).2.1 rfl
  have hcb : ',' ∉ b := fun hm => (plainChar_spec (hpb ',' hm)).2.1 rfl
  have hna : '\n' ∉ a := fun hm => (plainChar_spec (hpa '\n' hm)).2.2.2.1 rfl
  have hnb : '\n' ∉ b := fun hm => (plainChar_spec (hpb '\n' hm)).2.2.2.1 rfl
  constructor
  · have hnl : '\n' ∉ a ++ ',' :: b := by
      intro hm
      rcases List.mem_append.mp hm with h | h
      · exact hna h
      · rcases List.mem_cons.mp h with h | h
        · cases h
        · exact hnb h
    have hsplit : List.splitOn '\n' (str "from,to" ++ '\n' :: (a ++ ',' :: b)) =
        [str "from,to", a ++ ',' :: b] := by
      rw [splitOn_append_sep,
        splitOn_sep_free (show ('\n' : Char) ∉ str "from,to" by decide),
        splitOn_sep_free hnl]
      rfl
    have hwline : ∀ c ∈ a ++ ',' :: b, isJsWhitespace c = false := by
      intro c hc
      rcases List.mem_append.mp hc with h | h
      · exact hwa c h
      · rcases List.mem_cons.mp h with rfl | h
        · decide
        · exact hwb c h
    have hlne : a ++ ',' :: b ≠ [] := by simp
    unfold parseCSV parseLines
    rw [hsplit]
    have hfil : ([str "from,to", a ++ ',' :: b]).filter
        (fun line => !(trim line).isEmpty) = [str "from,to", a ++ ',' :: b] := by
      rw [List.filter_eq_self]
      intro x hx
      rcases List.mem_cons.mp hx with rfl | hx2
      · decide
      · rcases List.mem_cons.mp hx2 with rfl | hx3
        · rw [trim_eq_self_of_no_ws hwline]
          simp [List.isEmpty_iff, hlne]
        · cases hx3
    rw [hfil]
    simp only [parseKept]
    rw [if_neg (by simp)]
    simp only [List.headD_cons]
    simp only [show (List.splitOn ',' (str "from,to")).map (fun h => toLowerStr (trim h)) =
      [str "from", str "to"] from by decide]
    simp only [show List.findIdx? isCurrentHeader [str "from", str "to"] = some 0 from by decide,
      show List.findIdx? isNewHeader [str "from", str "to"] = some 1 from by decide]
    rw [if_neg (by decide)]
    simp only [Option.getD_some, List.drop_one, List.tail_cons]
    have hrow : parseRow 0 1 (a ++ ',' :: b) = some ⟨a, b⟩ := by
      simp only [parseRow]
      have hcols : (List.splitOn ',' (a ++ ',' :: b)).map trim = [a, b] := by
        rw [splitOn_append_sep, splitOn_sep_free hca, splitOn_sep_free hcb]
        simp only [List.singleton_append, List.map_cons, List.map_nil]
        rw [trim_eq_self_of_no_ws hwa, trim_eq_self_of_no_ws hwb]
      rw [hcols]
      rw [if_pos (by simp)]
      simp only [List.getD_cons_zero, List.getD_cons_succ]
      rw [stripQuotes_eq_self hpa, stripQuotes_eq_self hpb]
      rw [if_pos (by
        rw [List.isEmpty_eq_false.mpr ha, List.isEmpty_eq_false.mpr hb]
        rfl)]
    rw [show List.filterMap (parseRow 0 1) [a ++ ',' :: b] = [(⟨a, b⟩ : CSVMapping)] from by
      rw [List.filterMap_cons_some hrow]
      rfl]
  · have hsa : ';' ∉ a := fun hm => (plainChar_spec (hpa ';' hm)).2.2.1 rfl
    have hnl2 : '\n' ∉ a ++ ';' :: b := by
      intro hm
      rcases List.mem_append.mp hm with h | h
      · exact hna h
      · rcases List.mem_cons.mp h with h | h
        · cases h
        · exact hnb h
    have hsplit2 : List.splitOn '\n' (str "from;to" ++ '\n' :: (a ++ ';' :: b)) =
        [str "from;to", a ++ ';' :: b] := by
      rw [splitOn_append_sep,
        splitOn_sep_free (show ('\n' : Char) ∉ str "from;to" by decide),
        splitOn_sep_free hnl2]
      rfl
    have hwline2 : ∀ c ∈ a ++ ';' :: b, isJsWhitespace c = false := by
      intro c hc
      rcases List.mem_append.mp hc with h | h
      · exact hwa c h
      · rcases List.mem_cons.mp h with rfl | h
        · decide
        · exact hwb c h
    have hlne2 : a ++ ';' :: b ≠ [] := by simp
    unfold parseCSV parseLines
    rw [hsplit2]
    have hfil2 : ([str "from;to", a ++ ';' :: b]).filter
        (fun line => !(trim line).isEmpty) = [str "from;to", a ++ ';' :: b] := by
      rw [List.filter_eq_self]
      intro x hx
      rcases List.mem_cons.mp hx with rfl | hx2
      · decide
      · rcases List.mem_cons.mp hx2 with rfl | hx3
        · rw [trim_eq_self_of_no_ws hwline2]
          simp [List.isEmpty_iff, hlne2]
        · cases hx3
    rw [hfil2]
    simp only [parseKept]
    rw [if_neg (by simp)]
    simp only [List.headD_cons]
    simp only [show (List.splitOn ',' (str "from;to")).map (fun h => toLowerStr (trim h)) =
      [str "from;to"] from by decide]
    simp only [show List.findIdx? isCurrentHeader [str "from;to"] = none from by decide,
      show List.findIdx? isNewHeader [str "from;to"] = none from by decide]
    rw [if_pos (by decide)]

/-- Witness for C1: the pair `x1 / y.png` parses from a comma CSV and
fails from the semicolon variant. -/
theorem c1_witness :
    (str "x1" ≠ [] ∧ str "y.png" ≠ [] ∧ (∀ c ∈ str "x1", plainChar c = true) ∧
      (∀ c ∈ str "y.png", plainChar c = true)) ∧
    (parseCSV (str "from,to" ++ '\n' :: (str "x1" ++ ',' :: str "y.png")) =
        .ok [⟨str "x1", str "y.png"⟩] ∧
      parseCSV (str "from;to" ++ '\n' :: (str "x1" ++ ';' :: str "y.png")) =
        .error (str "CSV must have at least 2 columns")) :=
  ⟨⟨by decide, by decide, by decide, by decide⟩,
   c1_amended_comma_split (str "x1") (str "y.png") (by decide) (by decide)
     (by decide) (by decide)⟩

end ImageFlair
